import Mathlib

/-
Verification of the core byte-to-text pipeline of the `hex` repository
(src/src/lib.rs): the paginator `buf_to_array`, the offset formatter
`offset`/`print_offset`, the byte-to-color map `byte_to_color`, and the
array-literal renderer `output_array`.

Modelling conventions:
 * `u8`/`u64` values are modelled as `Nat`.  All the counters involved track
   lengths of in-memory buffers, which can never reach 2^64, so wrap-around
   arithmetic is not observable and is omitted.
 * A fallible byte source (`impl Read`, whose `bytes()` iterator yields
   `Result<u8, io::Error>`) is modelled as a `List (Except String Nat)`;
   `Except.error` marks a read failure, and the `b?` propagation in the Rust
   source becomes returning `Except.error` from the model.
 * Output written with `write!`/`writeln!` is modelled by returning the
   emitted `String`.
-/

set_option maxHeartbeats 1000000

namespace Hx

/-- Model of `ansi_term::Color`; only the `Fixed` constructor is used by the
source. -/
inductive Color where
  | Fixed (n : Nat)
deriving DecidableEq

/-- The `Line` structure of src/src/lib.rs (offset, hex body, ascii text,
total bytes in the line). -/
structure Line where
  offset : Nat
  hex_body : List Nat
  ascii : List Nat
  bytes : Nat
deriving DecidableEq

/-- `Line::new()`. -/
def Line.new : Line := { offset := 0, hex_body := [], ascii := [], bytes := 0 }

/-- The `Page` structure of src/src/lib.rs (offset, body of lines, total
bytes in the page). -/
structure Page where
  offset : Nat
  body : List Line
  bytes : Nat
deriving DecidableEq

/-- `Page::new()`. -/
def Page.new : Page := { offset := 0, body := [], bytes := 0 }

/-- `page.body.push(line)` (Rust `Vec::push` appends at the end). -/
def push_line (page : Page) (line : Line) : Page :=
  { page with body := page.body ++ [line] }

/-- `let max_array_size = u16::MAX;` in `buf_to_array` (value 2^16 - 1). -/
def max_array_size : Nat := 65535

/-- Loop body of `buf_to_array` (src/src/lib.rs lines 430-446).  The state
carried across iterations is the remaining input, `column_count`, `page` and
`line`.  One iteration: propagate a read error; otherwise increment
`line.bytes` and `page.bytes`, push the byte on `line.hex_body`, increment
`column_count`; if `column_count >= column_width` seal the line into the page
and start a new line with `column_count = 0`; then break out of the loop when
`buf_len > 0 && (page.bytes == buf_len || max_array_size == buf_len)`.
After the loop the in-progress line is pushed (line 447). -/
def buf_to_array_go (buf_len column_width : Nat) :
    List (Except String Nat) → Nat → Page → Line → Except String Page
  | [], _, page, line => Except.ok (push_line page line)
  | Except.error e :: _, _, _, _ => Except.error e
  | Except.ok b1 :: rest, column_count, page, line =>
    if column_count + 1 ≥ column_width then
      if buf_len > 0 ∧ (page.bytes + 1 = buf_len ∨ max_array_size = buf_len) then
        Except.ok (push_line
          (push_line { page with bytes := page.bytes + 1 }
            { line with bytes := line.bytes + 1, hex_body := line.hex_body ++ [b1] })
          Line.new)
      else
        buf_to_array_go buf_len column_width rest 0
          (push_line { page with bytes := page.bytes + 1 }
            { line with bytes := line.bytes + 1, hex_body := line.hex_body ++ [b1] })
          Line.new
    else
      if buf_len > 0 ∧ (page.bytes + 1 = buf_len ∨ max_array_size = buf_len) then
        Except.ok (push_line { page with bytes := page.bytes + 1 }
          { line with bytes := line.bytes + 1, hex_body := line.hex_body ++ [b1] })
      else
        buf_to_array_go buf_len column_width rest (column_count + 1)
          { page with bytes := page.bytes + 1 }
          { line with bytes := line.bytes + 1, hex_body := line.hex_body ++ [b1] }

/-- `buf_to_array` (src/src/lib.rs lines 421-448). -/
def buf_to_array (buf : List (Except String Nat)) (buf_len column_width : Nat) :
    Except String Page :=
  buf_to_array_go buf_len column_width buf 0 Page.new Line.new

/-- `byte_to_color` (src/src/lib.rs lines 128-135): byte 0 maps to the fixed
palette color 0x16, every other byte maps to its own value. -/
def byte_to_color (b : Nat) : Color :=
  Color.Fixed (match b with
    | 0 => 0x16
    | _ => b)

/-- Lowercase hexadecimal digit string of a natural number (minimal width,
`"0"` for 0), as produced by Rust's `{:x}` formatting. -/
def natToHex (n : Nat) : String := String.mk (Nat.toDigits 16 n)

/-- Left-pad a string with `'0'` characters up to width `w`. -/
def zeroPad (w : Nat) (s : String) : String :=
  String.mk (List.replicate (w - s.length) '0') ++ s

/-- `offset` (src/src/lib.rs lines 99-101): `format!("{b:#08x}")`.
Rust semantics of `{:#08x}`: render the lowercase hex digits, put the
alternate-form prefix `0x` in front, and zero-pad between the prefix and the
digits until the whole token (prefix included) reaches width 8. -/
def offset (b : Nat) : String :=
  "0x" ++ String.mk (List.replicate (8 - (2 + (natToHex b).length)) '0') ++ natToHex b

/-- `print_offset` (src/src/lib.rs lines 104-106): `write!(w, "{}: ", offset(b))`,
modelled as the emitted string. -/
def print_offset (b : Nat) : String := offset b ++ ": "

/-- Modelled from the spec: `crate::format::Format::LowerHex.format(b, with_prefix)`
lives in the `format` module, which is not part of src/.  Per the spec
(section 4.1): 2-digit zero-padded lowercase hex, with prefix `0x` when
requested. -/
def lower_hex (b : Nat) (pfx : Bool) : String :=
  (if pfx then "0x" else "") ++ zeroPad 2 (natToHex b)

/-- Concatenation of a list of emitted strings, in order. -/
def strConcat : List String → String
  | [] => ""
  | s :: rest => s ++ strConcat rest

/-- The string written for one byte by the inner loop of `output_array`
(src/src/lib.rs lines 361-374).  `i` is the value of the running byte counter
after `i += 1`, `total` is `page.bytes`. -/
def arr_byte_str (array_format : String) (i total hex : Nat) : String :=
  if i = total ∧ array_format ≠ "g" then
    if array_format ≠ "f" then lower_hex hex true
    else lower_hex hex true ++ "uy"
  else if array_format ≠ "f" then lower_hex hex true ++ ", "
  else lower_hex hex true ++ "uy; "

/-- The per-byte strings written while iterating one line's `hex_body`
(`for hex in line.hex_body.iter()`), threading the running counter `i`. -/
def arr_line_toks (array_format : String) (total : Nat) : Nat → List Nat → List String
  | _, [] => []
  | i, h :: rest =>
    arr_byte_str array_format (i + 1) total h ::
      arr_line_toks array_format total (i + 1) rest

/-- The per-byte strings written across all lines of the page, in order
(`for line in page.body.iter()`); after a line the counter has advanced by
that line's `hex_body` length. -/
def arr_page_tokens (array_format : String) (total : Nat) : Nat → List Line → List String
  | _, [] => []
  | i, l :: rest =>
    arr_line_toks array_format total i l.hex_body ++
      arr_page_tokens array_format total (i + l.hex_body.length) rest

/-- Body of `output_array` (src/src/lib.rs lines 358-376): for each line,
`write!("    ")`, the per-byte tokens, then `writeln!()`. -/
def arr_body_str (array_format : String) (total : Nat) : Nat → List Line → String
  | _, [] => ""
  | i, l :: rest =>
    "    " ++ strConcat (arr_line_toks array_format total i l.hex_body) ++ "\n" ++
      arr_body_str array_format total (i + l.hex_body.length) rest

/-- Opening line of `output_array` (src/src/lib.rs lines 347-357), including
the newline from `writeln!`. -/
def arr_header (array_format : String) (n : Nat) : String :=
  match array_format with
  | "r" => "let ARRAY: [u8; " ++ toString n ++ "] = [\n"
  | "c" => "unsigned char ARRAY[" ++ toString n ++ "] = \x7b\n"
  | "g" => "a := [" ++ toString n ++ "]byte\x7b\n"
  | "p" => "a = [\n"
  | "k" => "val a = byteArrayOf(\n"
  | "j" => "byte[] a = new byte[]\x7b\n"
  | "s" => "let a: [UInt8] = [\n"
  | "f" => "let a = [|\n"
  | _ => "unknown array format\n"

/-- Closing line of `output_array` (src/src/lib.rs lines 378-391), without
the newline added by `writeln!`. -/
def arr_footer (array_format : String) : String :=
  match array_format with
  | "r" => "];"
  | "c" => "\x7d;"
  | "j" => "\x7d;"
  | "g" => "\x7d"
  | "p" => "]"
  | "k" => ")"
  | "s" => "]"
  | "f" => "|]"
  | _ => "unknown array format"

/-- `output_array` (src/src/lib.rs lines 337-392), modelled as the full text
written to stdout.  The source calls
`buf_to_array(&mut buf, truncate_len, column_width).unwrap()`: an I/O error
from the byte source makes `.unwrap()` panic instead of returning the error
through the `io::Result` return type; the panic is modelled as `none`. -/
def output_array (array_format : String) (buf : List (Except String Nat))
    (truncate_len column_width : Nat) : Option String :=
  match buf_to_array buf truncate_len column_width with
  | Except.error _ => none
  | Except.ok page =>
      some (arr_header array_format page.bytes ++
        arr_body_str array_format page.bytes 0 page.body ++
        (arr_footer array_format ++ "\n"))

/-- All bytes of a page in order (the flattening of the lines' `hex_body`s). -/
def page_flat (p : Page) : List Nat :=
  p.body.foldr (fun l acc => l.hex_body ++ acc) []

/-- Spec-side description of an array-literal element token (the claim's
"byte"): lower-hex with prefix, with the `uy` suffix for the F# syntax. -/
def arr_token (array_format : String) (b : Nat) : String :=
  if array_format = "f" then lower_hex b true ++ "uy" else lower_hex b true

/-- Spec-side description of the syntax-specific separator between
array-literal elements. -/
def arr_sep (array_format : String) : String :=
  if array_format = "f" then "; " else ", "

@[simp]
theorem push_line_bytes (p : Page) (l : Line) : (push_line p l).bytes = p.bytes := rfl

@[simp]
theorem push_line_body (p : Page) (l : Line) : (push_line p l).body = p.body ++ [l] := rfl

@[simp]
theorem line_new_bytes : Line.new.bytes = 0 := rfl

@[simp]
theorem line_new_hex_body : Line.new.hex_body = ([] : List Nat) := rfl

@[simp]
theorem page_new_bytes : Page.new.bytes = 0 := rfl

@[simp]
theorem page_new_body : Page.new.body = ([] : List Line) := rfl

/-- Whatever page the loop returns, the final `page.body.push(line)` makes
its body nonempty. -/
theorem go_ok_body_ne (L W : Nat) :
    ∀ (buf : List (Except String Nat)) (cc : Nat) (page : Page) (line : Line) (p : Page),
      buf_to_array_go L W buf cc page line = Except.ok p → p.body ≠ [] := by
  intro buf
  induction buf with
  | nil =>
    intro cc page line p h
    simp only [buf_to_array_go, Except.ok.injEq] at h
    subst h
    simp
  | cons b rest ih =>
    intro cc page line p h
    cases b with
    | error e => simp [buf_to_array_go] at h
    | ok b1 =>
      simp only [buf_to_array_go] at h
      split at h
      · split at h
        · simp only [Except.ok.injEq] at h
          subst h
          simp
        · exact ih _ _ _ _ h
      · split at h
        · simp only [Except.ok.injEq] at h
          subst h
          simp
        · exact ih _ _ _ _ h

/-- Loop invariant: the page's byte counter equals the bytes of the sealed
rows plus the bytes of the in-progress row, hence on return it equals the
sum over all rows of the final page. -/
theorem go_bytes_sum (L W : Nat) :
    ∀ (buf : List (Except String Nat)) (cc : Nat) (page : Page) (line : Line) (p : Page),
      buf_to_array_go L W buf cc page line = Except.ok p →
      page.bytes = (page.body.map Line.bytes).sum + line.bytes →
      p.bytes = (p.body.map Line.bytes).sum := by
  intro buf
  induction buf with
  | nil =>
    intro cc page line p h hinv
    simp only [buf_to_array_go, Except.ok.injEq] at h
    subst h
    simp [hinv]
  | cons b rest ih =>
    intro cc page line p h hinv
    cases b with
    | error e => simp [buf_to_array_go] at h
    | ok b1 =>
      simp only [buf_to_array_go] at h
      split at h
      · split at h
        · simp only [Except.ok.injEq] at h
          subst h
          simp
          omega
        · refine ih _ _ _ _ h ?_
          simp
          omega
      · split at h
        · simp only [Except.ok.injEq] at h
          subst h
          simp
          omega
        · refine ih _ _ _ _ h ?_
          simp
          omega

/-- Loop invariant for row widths: the in-progress row has `column_count`
bytes with `column_count < W`, and every sealed row has exactly `W` bytes;
hence on return every non-final row has exactly `W` bytes and every row has
at most `W` bytes. -/
theorem go_rows (L W : Nat) :
    ∀ (buf : List (Except String Nat)) (cc : Nat) (page : Page) (line : Line) (p : Page),
      buf_to_array_go L W buf cc page line = Except.ok p →
      line.bytes = cc → cc < W → (∀ l ∈ page.body, l.bytes = W) →
      (∀ l ∈ p.body.dropLast, l.bytes = W) ∧ (∀ l ∈ p.body, l.bytes ≤ W) := by
  intro buf
  induction buf with
  | nil =>
    intro cc page line p h hlb hcc hrows
    simp only [buf_to_array_go, Except.ok.injEq] at h
    subst h
    constructor
    · intro l hl
      rw [push_line_body, List.dropLast_concat] at hl
      exact hrows l hl
    · intro l hl
      rw [push_line_body, List.mem_append] at hl
      rcases hl with hl | hl
      · exact (hrows l hl).le
      · simp only [List.mem_singleton] at hl
        subst hl
        omega
  | cons b rest ih =>
    intro cc page line p h hlb hcc hrows
    cases b with
    | error e => simp [buf_to_array_go] at h
    | ok b1 =>
      simp only [buf_to_array_go] at h
      split at h
      · rename_i hseal
        have hw : cc + 1 = W := by omega
        split at h
        · simp only [Except.ok.injEq] at h
          subst h
          constructor
          · intro l hl
            rw [push_line_body, push_line_body, List.dropLast_concat, List.mem_append] at hl
            rcases hl with hl | hl
            · exact hrows l hl
            · simp only [List.mem_singleton] at hl
              subst hl
              simp
              omega
          · intro l hl
            simp only [push_line_body, List.append_assoc, List.mem_append,
              List.mem_singleton] at hl
            rcases hl with hl | hl | hl
            · exact (hrows l hl).le
            · subst hl
              simp
              omega
            · subst hl
              simp
        · refine ih _ _ _ _ h rfl (by omega) ?_
          intro l hl
          rw [push_line_body, List.mem_append] at hl
          rcases hl with hl | hl
          · exact hrows l hl
          · simp only [List.mem_singleton] at hl
            subst hl
            simp
            omega
      · rename_i hseal
        split at h
        · simp only [Except.ok.injEq] at h
          subst h
          constructor
          · intro l hl
            rw [push_line_body, List.dropLast_concat] at hl
            exact hrows l hl
          · intro l hl
            rw [push_line_body, List.mem_append] at hl
            rcases hl with hl | hl
            · exact (hrows l hl).le
            · simp only [List.mem_singleton] at hl
              subst hl
              simp
              omega
        · refine ih _ _ _ _ h (by simp [hlb]) (by omega) hrows

/-- Loop invariant: the page's byte counter equals the total number of bytes
stored in the sealed rows' `hex_body`s plus the in-progress row's `hex_body`
length, hence on return it equals the total over all rows. -/
theorem go_hex_sum (L W : Nat) :
    ∀ (buf : List (Except String Nat)) (cc : Nat) (page : Page) (line : Line) (p : Page),
      buf_to_array_go L W buf cc page line = Except.ok p →
      page.bytes = (page.body.map (fun l => l.hex_body.length)).sum + line.hex_body.length →
      p.bytes = (p.body.map (fun l => l.hex_body.length)).sum := by
  intro buf
  induction buf with
  | nil =>
    intro cc page line p h hinv
    simp only [buf_to_array_go, Except.ok.injEq] at h
    subst h
    simp [hinv]
  | cons b rest ih =>
    intro cc page line p h hinv
    cases b with
    | error e => simp [buf_to_array_go] at h
    | ok b1 =>
      simp only [buf_to_array_go] at h
      split at h
      · split at h
        · simp only [Except.ok.injEq] at h
          subst h
          simp
          omega
        · refine ih _ _ _ _ h ?_
          simp
          omega
      · split at h
        · simp only [Except.ok.injEq] at h
          subst h
          simp
          omega
        · refine ih _ _ _ _ h ?_
          simp
          omega

/-- Length of the flattening of a list of lines. -/
theorem foldr_flat_length (ls : List Line) :
    (List.foldr (fun l acc => l.hex_body ++ acc) [] ls).length =
      (ls.map (fun l => l.hex_body.length)).sum := by
  induction ls with
  | nil => simp
  | cons l rest ih => simp [ih]

/-- `page_flat` has as many entries as the page's per-row byte totals sum to. -/
theorem page_flat_length (p : Page) :
    (page_flat p).length = (p.body.map (fun l => l.hex_body.length)).sum :=
  foldr_flat_length p.body

/-- On an error-free byte source the loop always returns a page. -/
theorem go_map_ok (L W : Nat) :
    ∀ (bs : List Nat) (cc : Nat) (page : Page) (line : Line),
      ∃ p, buf_to_array_go L W (bs.map Except.ok) cc page line = Except.ok p := by
  intro bs
  induction bs with
  | nil => intro cc page line; exact ⟨_, rfl⟩
  | cons b bs ih =>
    intro cc page line
    simp only [List.map_cons, buf_to_array_go]
    split
    · split
      · exact ⟨_, rfl⟩
      · exact ih _ _ _
    · split
      · exact ⟨_, rfl⟩
      · exact ih _ _ _

/-- Truncation accounting when `0 < L` and `L ≠ max_array_size`: the loop
reads until the page's byte counter reaches `L` or the input runs out. -/
theorem go_trunc (L W : Nat) (hL : 0 < L) (hne : L ≠ 65535) :
    ∀ (bs : List Nat) (cc : Nat) (page : Page) (line : Line),
      page.bytes < L →
      ∃ p, buf_to_array_go L W (bs.map Except.ok) cc page line = Except.ok p ∧
        p.bytes = min L (page.bytes + bs.length) := by
  intro bs
  induction bs with
  | nil =>
    intro cc page line hlt
    refine ⟨_, rfl, ?_⟩
    simp
    omega
  | cons b bs ih =>
    intro cc page line hlt
    simp only [List.map_cons, buf_to_array_go]
    by_cases hbreak : page.bytes + 1 = L
    · split
      · split
        · refine ⟨_, rfl, ?_⟩
          simp only [push_line_bytes, List.length_cons]
          omega
        · rename_i hc
          exact absurd ⟨hL, Or.inl hbreak⟩ hc
      · split
        · refine ⟨_, rfl, ?_⟩
          simp only [push_line_bytes, List.length_cons]
          omega
        · rename_i hc
          exact absurd ⟨hL, Or.inl hbreak⟩ hc
    · have hcond : ¬(L > 0 ∧ (page.bytes + 1 = L ∨ max_array_size = L)) := by
        simp only [max_array_size]
        omega
      split
      · obtain ⟨p, hp, hb⟩ :=
          ih 0
            (push_line { page with bytes := page.bytes + 1 }
              { line with bytes := line.bytes + 1, hex_body := line.hex_body ++ [b] })
            Line.new (by simp; omega)
        refine ⟨p, hp, ?_⟩
        simp only [push_line_bytes] at hb
        simp only [List.length_cons]
        omega
      · obtain ⟨p, hp, hb⟩ :=
          ih (cc + 1) { page with bytes := page.bytes + 1 }
            { line with bytes := line.bytes + 1, hex_body := line.hex_body ++ [b] }
            (by simp; omega)
        refine ⟨p, hp, ?_⟩
        simp at hb
        simp only [List.length_cons]
        omega

/-- Truncation accounting when `L = max_array_size = 65535`: the loop stops
right after the very first byte, whatever the running total is. -/
theorem go_max (W : Nat) :
    ∀ (bs : List Nat) (cc : Nat) (page : Page) (line : Line),
      ∃ p, buf_to_array_go 65535 W (bs.map Except.ok) cc page line = Except.ok p ∧
        p.bytes = page.bytes + min 1 bs.length := by
  intro bs cc page line
  cases bs with
  | nil => exact ⟨_, rfl, by simp⟩
  | cons b bs =>
    simp only [List.map_cons, buf_to_array_go]
    split
    · split
      · refine ⟨_, rfl, ?_⟩
        simp only [push_line_bytes, List.length_cons]
        omega
      · rename_i hc
        exact absurd ⟨by omega, Or.inr rfl⟩ hc
    · split
      · refine ⟨_, rfl, ?_⟩
        simp only [push_line_bytes, List.length_cons]
        omega
      · rename_i hc
        exact absurd ⟨by omega, Or.inr rfl⟩ hc

/-- With `L = 0` the early-stop rule never fires: the loop consumes the
whole input and counts every byte. -/
theorem go_nolimit (W : Nat) :
    ∀ (bs : List Nat) (cc : Nat) (page : Page) (line : Line),
      ∃ p, buf_to_array_go 0 W (bs.map Except.ok) cc page line = Except.ok p ∧
        p.bytes = page.bytes + bs.length := by
  intro bs
  induction bs with
  | nil => intro cc page line; exact ⟨_, rfl, by simp⟩
  | cons b bs ih =>
    intro cc page line
    simp only [List.map_cons, buf_to_array_go]
    split
    · split
      · rename_i hc
        exact absurd hc.1 (by omega)
      · obtain ⟨p, hp, hb⟩ := ih 0 _ Line.new
        refine ⟨p, hp, ?_⟩
        simp only [push_line_bytes] at hb
        simp only [List.length_cons]
        omega
    · split
      · rename_i hc
        exact absurd hc.1 (by omega)
      · obtain ⟨p, hp, hb⟩ := ih _ _ _
        refine ⟨p, hp, ?_⟩
        simp at hb
        simp only [List.length_cons]
        omega

/-- With `L = 0` and `0 < W` the final (in-progress) row closes the page and
holds the residue of the byte count modulo the column width. -/
theorem go_last (W : Nat) (hW : 0 < W) :
    ∀ (bs : List Nat) (cc : Nat) (page : Page) (line : Line),
      line.bytes = cc → cc < W →
      ∃ p, buf_to_array_go 0 W (bs.map Except.ok) cc page line = Except.ok p ∧
        p.body.getLast?.map Line.bytes = some ((cc + bs.length) % W) := by
  intro bs
  induction bs with
  | nil =>
    intro cc page line hlb hcc
    refine ⟨_, rfl, ?_⟩
    simp [List.getLast?_concat, hlb, Nat.mod_eq_of_lt hcc]
  | cons b bs ih =>
    intro cc page line hlb hcc
    simp only [List.map_cons, buf_to_array_go]
    split
    · rename_i hseal
      split
      · rename_i hc
        exact absurd hc.1 (by omega)
      · obtain ⟨p, hp, hlast⟩ := ih 0 _ Line.new rfl hW
        refine ⟨p, hp, ?_⟩
        rw [hlast]
        have hw : cc + 1 = W := by omega
        rw [show (0:Nat) + bs.length = bs.length by omega,
          show cc + (b :: bs).length = W + bs.length by simp; omega,
          Nat.add_mod_left]
    · rename_i hseal
      split
      · rename_i hc
        exact absurd hc.1 (by omega)
      · obtain ⟨p, hp, hlast⟩ :=
          ih (cc + 1) { page with bytes := page.bytes + 1 }
            { line with bytes := line.bytes + 1, hex_body := line.hex_body ++ [b] }
            (by simp [hlb]) (by omega)
        refine ⟨p, hp, ?_⟩
        rw [hlast, show cc + (b :: bs).length = cc + 1 + bs.length from by
          simp only [List.length_cons]
          omega]

@[simp]
theorem strConcat_nil : strConcat [] = "" := rfl

@[simp]
theorem strConcat_cons (s : String) (l : List String) :
    strConcat (s :: l) = s ++ strConcat l := rfl

theorem strConcat_append (xs ys : List String) :
    strConcat (xs ++ ys) = strConcat xs ++ strConcat ys := by
  induction xs with
  | nil => simp [String.empty_append]
  | cons x xs ih => simp [ih, String.append_assoc]

/-- Splitting the per-byte token list of a line at an append point; the
running counter advances by the length of the first part. -/
theorem arr_line_toks_append (fmt : String) (total : Nat) :
    ∀ (xs ys : List Nat) (i : Nat),
      arr_line_toks fmt total i (xs ++ ys) =
        arr_line_toks fmt total i xs ++ arr_line_toks fmt total (i + xs.length) ys := by
  intro xs
  induction xs with
  | nil =>
    intro ys i
    simp [arr_line_toks]
  | cons x xs ih =>
    intro ys i
    simp only [List.cons_append, arr_line_toks, List.append_eq, ih, List.length_cons,
      List.cons_append]
    rw [show i + (xs.length + 1) = i + 1 + xs.length from by omega]

/-- The token stream over the page's lines equals the token stream over the
flattened byte list: the counter only ever advances one byte at a time. -/
theorem arr_page_tokens_flat (fmt : String) (total : Nat) :
    ∀ (body : List Line) (i : Nat),
      arr_page_tokens fmt total i body =
        arr_line_toks fmt total i (List.foldr (fun l acc => l.hex_body ++ acc) [] body) := by
  intro body
  induction body with
  | nil => intro i; rfl
  | cons l rest ih =>
    intro i
    simp only [arr_page_tokens, List.foldr_cons, arr_line_toks_append, ih]

/-- Separator placement for every syntax other than the Go tag `"g"`: when
the counter is due to hit `total` at the last byte, every byte but the last
is followed by the separator and the last byte is bare. -/
theorem arr_line_toks_sep (fmt : String) (hg : fmt ≠ "g") (total : Nat) :
    ∀ (ld : List Nat) (i : Nat), i + ld.length = total →
      strConcat (arr_line_toks fmt total i ld) =
        strConcat (ld.dropLast.map (fun b => arr_token fmt b ++ arr_sep fmt)) ++
          ((ld.getLast?.map (arr_token fmt)).getD "") := by
  intro ld
  induction ld with
  | nil =>
    intro i hi
    simp [arr_line_toks, String.append_empty]
  | cons a rest ih =>
    intro i hi
    cases rest with
    | nil =>
      have ht : i + 1 = total := by simpa using hi
      by_cases hf : fmt = "f" <;>
        simp [arr_line_toks, arr_byte_str, arr_token, ht, hg, hf,
          String.append_empty, String.empty_append]
    | cons b rs =>
      have hne : ¬(i + 1 = total) := by
        simp only [List.length_cons] at hi
        omega
      have hib := ih (i + 1) (by simp only [List.length_cons] at hi ⊢; omega)
      rw [show arr_line_toks fmt total i (a :: b :: rs) =
            arr_byte_str fmt (i + 1) total a :: arr_line_toks fmt total (i + 1) (b :: rs)
          from rfl,
        strConcat_cons, hib, List.dropLast_cons₂, List.getLast?_cons_cons, List.map_cons,
        strConcat_cons, String.append_assoc]
      congr 1
      rw [show arr_byte_str fmt (i + 1) total a =
            (if fmt ≠ "f" then lower_hex a true ++ ", " else lower_hex a true ++ "uy; ")
          from by
            unfold arr_byte_str
            rw [if_neg (fun hcon => hne hcon.1)]]
      by_cases hf : fmt = "f"
      · rw [if_neg (by simp [hf]), show arr_token fmt a = lower_hex a true ++ "uy" from by
          simp [arr_token, hf], show arr_sep fmt = "; " from by simp [arr_sep, hf],
          String.append_assoc]
        congr 1
      · rw [if_pos hf, show arr_token fmt a = lower_hex a true from by
          simp [arr_token, hf], show arr_sep fmt = ", " from by simp [arr_sep, hf]]

/-- Separator placement for the Go tag `"g"`: every byte, the last included,
is followed by the separator. -/
theorem arr_line_toks_g (total : Nat) :
    ∀ (ld : List Nat) (i : Nat),
      strConcat (arr_line_toks "g" total i ld) =
        strConcat (ld.map (fun b => arr_token "g" b ++ arr_sep "g")) := by
  intro ld
  induction ld with
  | nil => intro i; rfl
  | cons a rest ih =>
    intro i
    simp only [arr_line_toks, strConcat_cons, List.map_cons, ih]
    congr 1
    simp [arr_byte_str, arr_token, arr_sep]

/-- An unrecognized syntax tag falls through to the literal
`"unknown array format"` opening line. -/
theorem arr_header_unknown (fmt : String) (n : Nat)
    (h : fmt ∉ (["r", "c", "g", "p", "k", "j", "s", "f"] : List String)) :
    arr_header fmt n = "unknown array format\n" := by
  simp only [List.mem_cons, List.not_mem_nil, or_false] at h
  push_neg at h
  unfold arr_header
  split <;> simp_all

/-- An unrecognized syntax tag falls through to the literal
`"unknown array format"` closing line. -/
theorem arr_footer_unknown (fmt : String)
    (h : fmt ∉ (["r", "c", "g", "p", "k", "j", "s", "f"] : List String)) :
    arr_footer fmt = "unknown array format" := by
  simp only [List.mem_cons, List.not_mem_nil, or_false] at h
  push_neg at h
  unfold arr_footer
  split <;> simp_all

/-- C1, counterexample: with `truncate_len = 65535 = 2^16 - 1` the code stops
after the very first byte (the break condition tests
`max_array_size == buf_len`, not the running total), so on a two-byte source
the page holds 1 byte even though the running total never reached 65535 —
the same source yields 2 bytes when no truncation is requested. -/
theorem truncate_max_bound_counterexample :
    (buf_to_array [Except.ok 0, Except.ok 0] 65535 1).map Page.bytes = Except.ok 1 ∧
    (buf_to_array [Except.ok 0, Except.ok 0] 0 1).map Page.bytes = Except.ok 2 := by
  exact ⟨rfl, rfl⟩

/-- C1 (amended): for `truncate_len = T > 0` the paginator stops exactly when
the page's running total reaches `T` — except when `T = 2^16 - 1`, where it
stops right after the first byte regardless of the running total — and the
in-progress row is appended to the page as the last row in every case. -/
theorem truncate_stop_rule (bs : List Nat) (T W : Nat) (_hW : 0 < W) (hT : 0 < T) :
    ∃ p, buf_to_array (bs.map Except.ok) T W = Except.ok p ∧
      p.bytes = (if T = 65535 then min 1 bs.length else min T bs.length) ∧
      p.body ≠ [] := by
  by_cases h65 : T = 65535
  · subst h65
    obtain ⟨p, hp, hb⟩ := go_max W bs 0 Page.new Line.new
    refine ⟨p, hp, ?_, go_ok_body_ne 65535 W _ 0 Page.new Line.new p hp⟩
    simp only [page_new_bytes, Nat.zero_add] at hb
    simp [hb]
  · obtain ⟨p, hp, hb⟩ := go_trunc T W hT h65 bs 0 Page.new Line.new (by simpa using hT)
    refine ⟨p, hp, ?_, go_ok_body_ne T W _ 0 Page.new Line.new p hp⟩
    simp only [page_new_bytes, Nat.zero_add] at hb
    simp [h65, hb]

/-- Witness for C1 (amended) at `bs = [1,2,3]`, `T = 2`, `W = 2`. -/
theorem truncate_stop_rule_witness :
    ∃ p, buf_to_array (([1, 2, 3] : List Nat).map Except.ok) 2 2 = Except.ok p ∧
      p.bytes = (if (2 : Nat) = 65535 then min 1 ([1, 2, 3] : List Nat).length
        else min 2 ([1, 2, 3] : List Nat).length) ∧
      p.body ≠ [] :=
  truncate_stop_rule [1, 2, 3] 2 2 (by decide) (by decide)

/-- C2, counterexample: the first row's offset column is `0x000000: `, not
`0x00000000: ` — Rust's `{:#08x}` counts the `0x` prefix inside the width 8,
so offset 0 gets six hex digits, not eight. -/
theorem offset_zero_counterexample :
    print_offset 0 = "0x000000: " ∧ print_offset 0 ≠ "0x00000000: " := by
  exact ⟨rfl, by decide⟩

/-- C2 (amended): the offset column is `0x` followed by the offset's
lowercase hex digits zero-padded to at least six digits (a token of total
width at least 8 counting the `0x` prefix), then `: `; for the first row
(offset 0) the renderer emits exactly `0x000000: `. -/
theorem offset_column_format (b : Nat) :
    print_offset b = "0x" ++ zeroPad 6 (natToHex b) ++ ": " ∧
    print_offset 0 = "0x000000: " := by
  constructor
  · unfold print_offset offset zeroPad
    rw [show (8 : Nat) - (2 + (natToHex b).length) = 6 - (natToHex b).length from by omega]
    simp only [String.append_assoc]
  · rfl

/-- C3: with column width `W > 0`, the page's total byte count equals the
full input length when `truncate_len = 0` and never exceeds `truncate_len`
when it is positive. -/
theorem page_bytes_bounded (bs : List Nat) (L W : Nat) (_hW : 0 < W) :
    ∃ p, buf_to_array (bs.map Except.ok) L W = Except.ok p ∧
      (L = 0 → p.bytes = bs.length) ∧ (0 < L → p.bytes ≤ L) := by
  rcases Nat.eq_zero_or_pos L with rfl | hL
  · obtain ⟨p, hp, hb⟩ := go_nolimit W bs 0 Page.new Line.new
    refine ⟨p, hp, fun _ => ?_, fun hcon => absurd hcon (by omega)⟩
    simpa using hb
  · by_cases h65 : L = 65535
    · subst h65
      obtain ⟨p, hp, hb⟩ := go_max W bs 0 Page.new Line.new
      refine ⟨p, hp, fun hcon => absurd hcon (by omega), fun _ => ?_⟩
      simp only [page_new_bytes, Nat.zero_add] at hb
      omega
    · obtain ⟨p, hp, hb⟩ := go_trunc L W hL h65 bs 0 Page.new Line.new (by simpa using hL)
      refine ⟨p, hp, fun hcon => absurd hcon (by omega), fun _ => ?_⟩
      simp only [page_new_bytes, Nat.zero_add] at hb
      omega

/-- Witness for C3 at `bs = [1,2,3]`, `L = 2`, `W = 1`. -/
theorem page_bytes_bounded_witness :
    ∃ p, buf_to_array (([1, 2, 3] : List Nat).map Except.ok) 2 1 = Except.ok p ∧
      ((2 : Nat) = 0 → p.bytes = ([1, 2, 3] : List Nat).length) ∧
      ((0 : Nat) < 2 → p.bytes ≤ 2) :=
  page_bytes_bounded [1, 2, 3] 2 1 (by decide)

/-- C4: for every page the paginator produces, the page's total-byte counter
equals the sum of its rows' byte counts. -/
theorem page_bytes_eq_sum_rows (buf : List (Except String Nat)) (L W : Nat) (p : Page)
    (hp : buf_to_array buf L W = Except.ok p) :
    p.bytes = (p.body.map Line.bytes).sum :=
  go_bytes_sum L W buf 0 Page.new Line.new p hp (by simp)

/-- Witness for C4 at `buf = [ok 9]`, `L = 0`, `W = 3`. -/
theorem page_bytes_eq_sum_rows_witness :
    ((⟨0, [⟨0, [9], [], 1⟩], 1⟩ : Page)).bytes =
      (((⟨0, [⟨0, [9], [], 1⟩], 1⟩ : Page)).body.map Line.bytes).sum :=
  page_bytes_eq_sum_rows [Except.ok 9] 0 3 ⟨0, [⟨0, [9], [], 1⟩], 1⟩ rfl

/-- C5: with column width `W > 0`, every non-final row of a produced page
holds exactly `W` bytes, and every row holds at most `W` bytes (only the last
row may be shorter). -/
theorem row_width_invariant (buf : List (Except String Nat)) (L W : Nat) (p : Page)
    (hW : 0 < W) (hp : buf_to_array buf L W = Except.ok p) :
    (∀ l ∈ p.body.dropLast, l.bytes = W) ∧ (∀ l ∈ p.body, l.bytes ≤ W) :=
  go_rows L W buf 0 Page.new Line.new p hp rfl hW (by simp)

/-- Witness for C5 at `buf = [ok 5, ok 6, ok 7]`, `L = 0`, `W = 2`. -/
theorem row_width_invariant_witness :
    (∀ l ∈ ((⟨0, [⟨0, [5, 6], [], 2⟩, ⟨0, [7], [], 1⟩], 3⟩ : Page)).body.dropLast,
        l.bytes = 2) ∧
    (∀ l ∈ ((⟨0, [⟨0, [5, 6], [], 2⟩, ⟨0, [7], [], 1⟩], 3⟩ : Page)).body, l.bytes ≤ 2) :=
  row_width_invariant ([5, 6, 7].map Except.ok) 0 2
    ⟨0, [⟨0, [5, 6], [], 2⟩, ⟨0, [7], [], 1⟩], 3⟩ (by decide) rfl

/-- C6: with `W > 0`, no truncation, and an input whose length is an exact
multiple of `W`, the last row of the page is empty; an empty input yields a
page with exactly one (empty) row and total byte count 0. -/
theorem exact_multiple_last_row_empty (bs : List Nat) (W : Nat) (hW : 0 < W)
    (hmul : bs.length % W = 0) :
    ∃ p, buf_to_array (bs.map Except.ok) 0 W = Except.ok p ∧
      p.body.getLast?.map Line.bytes = some 0 ∧
      (bs = [] → p.body.length = 1 ∧ p.bytes = 0) := by
  obtain ⟨p, hp, hlast⟩ := go_last W hW bs 0 Page.new Line.new rfl hW
  refine ⟨p, hp, ?_, ?_⟩
  · rw [hlast, show (0 : Nat) + bs.length = bs.length from by omega, hmul]
  · rintro rfl
    have h2 := hp.symm.trans
      (rfl : buf_to_array_go 0 W (List.map Except.ok []) 0 Page.new Line.new =
        Except.ok (⟨0, [Line.new], 0⟩ : Page))
    have hpe : p = (⟨0, [Line.new], 0⟩ : Page) := Except.ok.inj h2
    subst hpe
    exact ⟨rfl, rfl⟩

/-- Witness for C6 at `bs = []`, `W = 1`. -/
theorem exact_multiple_last_row_empty_witness :
    ∃ p, buf_to_array (([] : List Nat).map Except.ok) 0 1 = Except.ok p ∧
      p.body.getLast?.map Line.bytes = some 0 ∧
      (([] : List Nat) = [] → p.body.length = 1 ∧ p.bytes = 0) :=
  exact_multiple_last_row_empty [] 1 (by decide) (by decide)

/-- C7: in the array-literal renderer, for a page produced by the paginator
with at least one byte, every recognized syntax except the Go tag `"g"`
renders every byte but the last followed by its separator and the last byte
bare, while `"g"` renders the separator after every byte, the last included. -/
theorem array_last_byte_no_separator (buf : List (Except String Nat)) (L W : Nat)
    (p : Page) (fmt : String) (hp : buf_to_array buf L W = Except.ok p)
    (_hne : 0 < p.bytes)
    (hfmt : fmt ∈ (["r", "c", "p", "k", "j", "s", "f"] : List String)) :
    strConcat (arr_page_tokens fmt p.bytes 0 p.body) =
        strConcat ((page_flat p).dropLast.map (fun b => arr_token fmt b ++ arr_sep fmt)) ++
          ((page_flat p).getLast?.map (arr_token fmt)).getD "" ∧
    strConcat (arr_page_tokens "g" p.bytes 0 p.body) =
        strConcat ((page_flat p).map (fun b => arr_token "g" b ++ arr_sep "g")) := by
  have hlen : p.bytes = (page_flat p).length := by
    rw [page_flat_length]
    exact go_hex_sum L W buf 0 Page.new Line.new p hp rfl
  have hg : fmt ≠ "g" := by
    simp only [List.mem_cons, List.not_mem_nil, or_false] at hfmt
    rcases hfmt with rfl | rfl | rfl | rfl | rfl | rfl | rfl <;> decide
  constructor
  · rw [arr_page_tokens_flat fmt p.bytes p.body 0]
    exact arr_line_toks_sep fmt hg p.bytes (page_flat p) 0 (by omega)
  · rw [arr_page_tokens_flat "g" p.bytes p.body 0]
    exact arr_line_toks_g p.bytes (page_flat p) 0

/-- Witness for C7 at `buf = [ok 171]`, `L = 0`, `W = 16`, tag `"r"`. -/
theorem array_last_byte_no_separator_witness :
    strConcat (arr_page_tokens "r" ((⟨0, [⟨0, [171], [], 1⟩], 1⟩ : Page)).bytes 0
        ((⟨0, [⟨0, [171], [], 1⟩], 1⟩ : Page)).body) =
        strConcat ((page_flat (⟨0, [⟨0, [171], [], 1⟩], 1⟩ : Page)).dropLast.map
          (fun b => arr_token "r" b ++ arr_sep "r")) ++
          ((page_flat (⟨0, [⟨0, [171], [], 1⟩], 1⟩ : Page)).getLast?.map
            (arr_token "r")).getD "" ∧
    strConcat (arr_page_tokens "g" ((⟨0, [⟨0, [171], [], 1⟩], 1⟩ : Page)).bytes 0
        ((⟨0, [⟨0, [171], [], 1⟩], 1⟩ : Page)).body) =
        strConcat ((page_flat (⟨0, [⟨0, [171], [], 1⟩], 1⟩ : Page)).map
          (fun b => arr_token "g" b ++ arr_sep "g")) :=
  array_last_byte_no_separator [Except.ok 171] 0 16 ⟨0, [⟨0, [171], [], 1⟩], 1⟩ "r"
    rfl (by decide) (by decide)

/-- C8: an unrecognized array-syntax tag is not an error: the renderer
returns successfully, with the literal `unknown array format` line as both
the opening and the closing line of the output. -/
theorem array_unknown_format_graceful (bs : List Nat) (L W : Nat) (fmt : String)
    (h : fmt ∉ (["r", "c", "g", "p", "k", "j", "s", "f"] : List String)) :
    ∃ mid, output_array fmt (bs.map Except.ok) L W =
      some ("unknown array format\n" ++ (mid ++ "unknown array format\n")) := by
  obtain ⟨p, hp⟩ := go_map_ok L W bs 0 Page.new Line.new
  have hp2 : buf_to_array (bs.map Except.ok) L W = Except.ok p := hp
  refine ⟨arr_body_str fmt p.bytes 0 p.body, ?_⟩
  simp only [output_array, hp2]
  rw [arr_header_unknown fmt p.bytes h, arr_footer_unknown fmt h,
    show ("unknown array format" ++ "\n" : String) = "unknown array format\n" from by decide]
  simp only [String.append_assoc]

/-- Witness for C8 at `bs = [0]`, `L = 0`, `W = 16`, tag `"z"`. -/
theorem array_unknown_format_graceful_witness :
    ∃ mid, output_array "z" (([0] : List Nat).map Except.ok) 0 16 =
      some ("unknown array format\n" ++ (mid ++ "unknown array format\n")) :=
  array_unknown_format_graceful [0] 0 16 "z" (by decide)

/-- C9: the byte-to-color mapping sends byte 0x00 and byte 0x16 to the same
fixed palette color 0x16, sends every nonzero byte to its own palette index,
and is therefore not injective over the 256 byte values. -/
theorem byte_to_color_not_injective :
    byte_to_color 0 = Color.Fixed 0x16 ∧ byte_to_color 0x16 = Color.Fixed 0x16 ∧
    (∀ b : Nat, b ≠ 0 → byte_to_color b = Color.Fixed b) ∧
    ¬Function.Injective (fun b : Fin 256 => byte_to_color b.val) := by
  refine ⟨rfl, rfl, ?_, ?_⟩
  · intro b hb
    cases b with
    | zero => exact absurd rfl hb
    | succ n => rfl
  · intro hinj
    have h := @hinj ⟨0, by decide⟩ ⟨0x16, by decide⟩ (by decide)
    exact absurd (congrArg Fin.val h) (by decide)

/-- Witness for C9: a nonzero byte keeps its own palette index. -/
theorem byte_to_color_not_injective_witness :
    byte_to_color 7 = Color.Fixed 7 :=
  byte_to_color_not_injective.2.2.1 7 (by decide)

/-- C10: the array-literal renderer unwraps the paginator's result, so a read
failure from the byte source does not come back as an error value: the model
returns `none` (the `.unwrap()` panic) rather than propagating the error. -/
theorem output_array_io_error_not_propagated :
    buf_to_array [Except.error "disk error"] 0 16 = Except.error "disk error" ∧
    output_array "r" [Except.error "disk error"] 0 16 = none := by
  exact ⟨rfl, rfl⟩

end Hx
